import Mathlib

/-
Verification of the batch NetCDF-to-CSV conversion driver described in
`docs/nc2csv.md`.  The Python implementation (`netcdf_to_csv.py`) is not part
of the repository snapshot; every definition below is a shallow embedding
modelled from the specification and the function reference in the
documentation.
-/

namespace NcToCsv

/-- Modelled from the spec: the backend engine identifiers known to the
converter (`netcdf4`, `scipy`, `h5netcdf`), per the documented equivalence
set. -/
inductive Engine where
  | netcdf4
  | scipy
  | h5netcdf
deriving DecidableEq, Repr

/-- Modelled from the spec: the fixed fallback order over the known engines. -/
def knownEngines : List Engine := [Engine.netcdf4, Engine.scipy, Engine.h5netcdf]

/-- Modelled from the spec: a source NetCDF file, abstracted by its name, the
set of engines that can successfully open it (an engine that is not installed
or cannot parse the file is simply absent), its named variables, and whether
the dimensions of its variables are compatible for the combined CSV. -/
structure NCFile where
  name : String
  goodEngines : List Engine
  varNames : List String
  combinedCompatible : Bool
deriving DecidableEq, Repr

/-- Modelled from the spec: whether engine `e` (among the installed engines
`avail`) succeeds in opening file `f`. -/
def engineOpens (avail : List Engine) (f : NCFile) (e : Engine) : Bool :=
  avail.contains e && f.goodEngines.contains e

/-- Modelled from the spec: the order in which engines are attempted for one
file — the requested engine first, then each remaining known engine in the
fixed fallback order. -/
def fallbackOrder (requested : Engine) : List Engine :=
  requested :: knownEngines.filter (fun e => e ≠ requested)

/-- Modelled from the spec: engine selection for one file — the first engine
in the fallback order that opens the file, or `none` on total exhaustion. -/
def selectEngine (avail : List Engine) (requested : Engine) (f : NCFile) :
    Option Engine :=
  (fallbackOrder requested).find? (engineOpens avail f)

/-- Modelled from the spec: the outcome recorded for one source file. -/
structure ConversionResult where
  source : String
  outputs : List String
  success : Bool
  errorMsg : Option String
  engineUsed : Option Engine
deriving DecidableEq, Repr

/-- Modelled from the spec: the CSV file name for one variable. -/
def csvNameFor (v : String) : String := v ++ ".csv"

/-- Modelled from the spec: one standalone CSV output per variable, named
after the variable. -/
def perVariableOutputs (f : NCFile) : List String :=
  f.varNames.map csvNameFor

/-- Modelled from the spec: the name of the combined CSV for a file. -/
def combinedName (f : NCFile) : String := f.name ++ "_combined.csv"

/-- Modelled from the spec: the combined CSV is produced exactly when the
variable dimensions are compatible (best effort). -/
def combinedOutputs (f : NCFile) : List String :=
  if f.combinedCompatible then [combinedName f] else []

/-- Modelled from the spec: all outputs written for a successfully opened
file — the per-variable CSVs plus, best effort, the combined CSV. -/
def exportOutputs (f : NCFile) : List String :=
  perVariableOutputs f ++ combinedOutputs f

/-- Modelled from the spec: conversion of a single file.  The engine fallback
runs; on success the exports are produced, on total exhaustion the file is
marked failed with an error message.  The failure is recorded in the result,
never propagated. -/
def convertOne (avail : List Engine) (requested : Engine) (f : NCFile) :
    ConversionResult :=
  match selectEngine avail requested f with
  | some e =>
      { source := f.name, outputs := exportOutputs f, success := true,
        errorMsg := none, engineUsed := some e }
  | none =>
      { source := f.name, outputs := [], success := false,
        errorMsg := some ("all engines failed for " ++ f.name),
        engineUsed := none }

/-- Modelled from the spec: `nc_to_csv_xarray` — the single-file entry point;
returns `true` on success and `false` otherwise, catching all failures. -/
def nc_to_csv_xarray (avail : List Engine) (requested : Engine) (f : NCFile) :
    Bool :=
  (convertOne avail requested f).success

/-- Modelled from the spec: sequential batch processing — each file is
converted independently, one at a time, in resolution order. -/
def processFiles (avail : List Engine) (requested : Engine)
    (files : List NCFile) : List ConversionResult :=
  files.map (convertOne avail requested)

/-- Modelled from the spec: one row of the conversion summary. -/
structure GroupStats where
  group : String
  attempted : Nat
  succeeded : Nat
  failed : Nat
deriving DecidableEq, Repr

/-- Modelled from the spec: the number of successful results in a list. -/
def countSucceeded (rs : List ConversionResult) : Nat :=
  (rs.filter (fun r => r.success)).length

/-- Modelled from the spec: the number of failed results in a list. -/
def countFailed (rs : List ConversionResult) : Nat :=
  (rs.filter (fun r => !r.success)).length

/-- Modelled from the spec: the summary row for one group of results. -/
def statsFor (g : String) (rs : List ConversionResult) : GroupStats :=
  { group := g, attempted := rs.length, succeeded := countSucceeded rs,
    failed := countFailed rs }

/-- Modelled from the spec: the per-group rows of the summary table. -/
def summaryRows (groups : List (String × List ConversionResult)) :
    List GroupStats :=
  groups.map (fun gr => statsFor gr.1 gr.2)

/-- Modelled from the spec: the overall total row of the summary table. -/
def totalRow (groups : List (String × List ConversionResult)) : GroupStats :=
  statsFor "TOTAL" (groups.flatMap (fun gr => gr.2))

/-- Modelled from the spec: an entry of a directory tree on disk — either a
data file or a subdirectory with its own entries. -/
inductive FSTree where
  | file (f : NCFile)
  | dir (dname : String) (children : List FSTree)

/-- Modelled from the spec: glob matching restricted to the forms the driver
uses — a pattern with a leading `*` matches any name with the given ending,
otherwise the name must match exactly. -/
def matchesPattern (pat : String) (name : String) : Bool :=
  match pat.data with
  | '*' :: ending => ending.isSuffixOf name.data
  | _ => name == pat

/-- Modelled from the spec: whether a file name matches any configured
pattern. -/
def matchesAny (pats : List String) (name : String) : Bool :=
  pats.any (fun p => matchesPattern p name)

/-- Modelled from the spec: the depth guard of the resolver — descent is
unbounded when `maxDepth` is unset, otherwise allowed up to `maxDepth`. -/
def withinDepth (maxDepth : Option Nat) (d : Nat) : Bool :=
  match maxDepth with
  | none => true
  | some m => d ≤ m

/-- Modelled from the spec: enumeration of candidate files among directory
entries sitting at nesting depth `d` below the input root.  Files matching a
pattern are collected; a subdirectory (at depth `d + 1`) is entered only when
recursion is on and the depth guard allows it. -/
def resolveList (pats : List String) (r : Bool) (maxDepth : Option Nat) :
    Nat → List FSTree → List NCFile
  | _, [] => []
  | d, FSTree.file f :: ts =>
      (if matchesAny pats f.name then [f] else []) ++
        resolveList pats r maxDepth d ts
  | d, FSTree.dir _ children :: ts =>
      (if r && withinDepth maxDepth (d + 1) then
         resolveList pats r maxDepth (d + 1) children
       else []) ++
        resolveList pats r maxDepth d ts

/-- Modelled from the spec: the directories the resolver visits (with their
nesting depth below the input root) while enumerating entries at depth `d`. -/
def visitedList (r : Bool) (maxDepth : Option Nat) :
    Nat → List FSTree → List (String × Nat)
  | _, [] => []
  | d, FSTree.file _ :: ts => visitedList r maxDepth d ts
  | d, FSTree.dir n children :: ts =>
      (if r && withinDepth maxDepth (d + 1) then
         (n, d + 1) :: visitedList r maxDepth (d + 1) children
       else []) ++
        visitedList r maxDepth d ts

/-- Modelled from the spec: the portion of a directory tree at nesting depth
at most `m`; used to state that depth-limited resolution sees nothing
deeper. -/
def truncList (m : Nat) : Nat → List FSTree → List FSTree
  | _, [] => []
  | d, FSTree.file f :: ts => FSTree.file f :: truncList m d ts
  | d, FSTree.dir n children :: ts =>
      (if d + 1 ≤ m then [FSTree.dir n (truncList m (d + 1) children)] else []) ++
        truncList m d ts

/-- Modelled from the spec: the immutable conversion request configuration. -/
structure Config where
  patterns : List String
  engine : Engine
  recursive : Bool
  maxDepth : Option Nat
  preserveStructure : Bool

/-- Modelled from the spec: an input path names either a single file or a
directory with entries. -/
inductive PathEntry where
  | file (f : NCFile)
  | dir (children : List FSTree)

/-- Modelled from the spec: filesystem lookup of an input path; `none` means
the path does not exist. -/
def lookupPath (fs : List (String × PathEntry)) (p : String) :
    Option PathEntry :=
  (fs.find? (fun q => q.1 == p)).map (fun q => q.2)

/-- Modelled from the spec: candidate files for one input — the file itself
when the input is a single file, else the pattern-matching entries of the
directory; an empty candidate list is not an error. -/
def resolveInput (cfg : Config) : PathEntry → List NCFile
  | PathEntry.file f => [f]
  | PathEntry.dir children =>
      resolveList cfg.patterns cfg.recursive cfg.maxDepth 0 children

/-- Modelled from the spec: conversion of all candidate files of one input. -/
def processInput (avail : List Engine) (cfg : Config) (e : PathEntry) :
    List ConversionResult :=
  processFiles avail cfg.engine (resolveInput cfg e)

/-- Modelled from the spec: validation of the input paths; a nonexistent root
path is a configuration error that aborts the invocation. -/
def resolveInputs (fs : List (String × PathEntry)) :
    List String → Except String (List (String × PathEntry))
  | [] => Except.ok []
  | p :: ps =>
      match lookupPath fs p with
      | none => Except.error ("input path does not exist: " ++ p)
      | some e => (resolveInputs fs ps).map (fun rest => (p, e) :: rest)

/-- Modelled from the spec: `process_multiple_inputs` — validates the input
paths, converts every candidate file of every input, and returns the summary
rows together with the overall total; only a configuration error aborts. -/
def process_multiple_inputs (avail : List Engine) (cfg : Config)
    (fs : List (String × PathEntry)) (inputs : List String) :
    Except String (List GroupStats × GroupStats) :=
  match resolveInputs fs inputs with
  | Except.error e => Except.error e
  | Except.ok entries =>
      let groups := entries.map (fun pe => (pe.1, processInput avail cfg pe.2))
      Except.ok (summaryRows groups, totalRow groups)

/-- Modelled from the spec: whether an invocation completed without a
configuration error being surfaced. -/
def resultOk {α : Type} : Except String α → Bool
  | Except.ok _ => true
  | Except.error _ => false

/-- Modelled from the spec: the filesystem seen as a finite graph of
directories; symbolic links may make `subdirs` cyclic. -/
structure DirGraph where
  dirs : List Nat
  subdirs : Nat → List Nat

/-- Modelled from the spec: the number of directories of the graph not yet
visited by the traversal. -/
def unvisitedCount (g : DirGraph) (visited : List Nat) : Nat :=
  g.dirs.countP (fun x => !visited.contains x)

/-- Modelled from the spec: the resolver traversal over the directory graph —
depth-first, skipping any directory already visited, so that cycles
introduced by symbolic links are never followed. -/
def dfsDirs (g : DirGraph) : List Nat → List Nat → List Nat
  | [], visited => visited.reverse
  | n :: stack, visited =>
      if h : n ∈ visited ∨ ¬ n ∈ g.dirs then
        dfsDirs g stack visited
      else
        dfsDirs g (g.subdirs n ++ stack) (n :: visited)
termination_by stack visited => (unvisitedCount g visited, stack.length)
decreasing_by
  · exact Prod.Lex.right _ (Nat.lt_succ_self _)
  · refine Prod.Lex.left _ _ ?_
    have hnv : ¬ n ∈ visited := (not_or.mp h).1
    have hmem : n ∈ g.dirs := not_not.mp (not_or.mp h).2
    have key : ∀ l : List Nat, n ∈ l →
        l.countP (fun x => !(n :: visited).contains x) <
          l.countP (fun x => !visited.contains x) := by
      intro l
      induction l with
      | nil => intro hx; cases hx
      | cons a l ih =>
          intro hx
          simp only [List.countP_cons]
          by_cases han : a = n
          · subst han
            have hc1 : (a :: visited).contains a = true := by simp
            have hc2 : visited.contains a = false := by simp [hnv]
            have hle : l.countP (fun x => !(a :: visited).contains x) ≤
                l.countP (fun x => !visited.contains x) := by
              apply List.countP_mono_left
              intro b _ hb
              simp at hb ⊢
              tauto
            have e1 : (if (!true : Bool) = true then 1 else 0) = 0 := rfl
            have e2 : (if (!false : Bool) = true then 1 else 0) = 1 := rfl
            simp only [hc1, hc2, e1, e2]
            omega
          · have hnl : n ∈ l := by
              rcases List.mem_cons.mp hx with hh | hh
              · exact absurd hh.symm han
              · exact hh
            have hih := ih hnl
            have hc : (n :: visited).contains a = visited.contains a := by
              by_cases hv : a ∈ visited
              · have t1 : (n :: visited).contains a = true := by simp [hv]
                have t2 : visited.contains a = true := by simp [hv]
                rw [t1, t2]
              · have t1 : (n :: visited).contains a = false := by simp [hv, han]
                have t2 : visited.contains a = false := by simp [hv]
                rw [t1, t2]
            simp only [hc]
            omega
    exact key g.dirs hmem

/-- Modelled from the spec: an output path, as components below the output
base directory. -/
abbrev OutPath := List String

/-- Modelled from the spec: where one produced file lands — mirroring the
source directory when structure preservation is on, otherwise a flat output
directory with the source file name as collision-safe marker. -/
def outPathFor (preserve : Bool) (relDir : List String) (srcName : String)
    (fname : String) : OutPath :=
  if preserve then relDir ++ [fname] else [srcName ++ "_" ++ fname]

/-- Modelled from the spec: a source file together with the directory it was
found in, relative to the input root. -/
structure SourceItem where
  relDir : List String
  file : NCFile

/-- Modelled from the spec: the output paths one conversion run writes for
the given source file set. -/
def layoutOf (preserve : Bool) (sources : List SourceItem) : List OutPath :=
  sources.flatMap
    (fun s => (exportOutputs s.file).map (outPathFor preserve s.relDir s.file.name))

/-- Modelled from the spec: writing output files into an existing output
tree — a path already present is overwritten in place, a new one appended. -/
def writeAll (existing : List OutPath) : List OutPath → List OutPath
  | [] => existing
  | o :: outs =>
      writeAll (if o ∈ existing then existing else existing ++ [o]) outs

/-- Modelled from the spec: one conversion run over an unchanged source file
set, starting from the given output directory tree. -/
def runConversion (preserve : Bool) (sources : List SourceItem)
    (existing : List OutPath) : List OutPath :=
  writeAll existing (layoutOf preserve sources)

/-- A sample file no engine can open. -/
def badFile : NCFile := ⟨"bad.nc", [], ["t"], true⟩

/-- A sample file only the scipy engine can open. -/
def scipyOnlyFile : NCFile := ⟨"s.nc", [Engine.scipy], ["t", "u"], false⟩

/-- A sample file the netcdf4 engine opens, with incompatible dimensions. -/
def okFile : NCFile := ⟨"d.nc", [Engine.netcdf4], ["temp", "sal"], false⟩

/-- A sample conversion configuration. -/
def sampleCfg : Config := ⟨["*.nc"], Engine.netcdf4, true, some 1, true⟩

/-- A sample directory tree with a subdirectory inside the depth limit and a
deeper one beyond it. -/
def sampleTree : List FSTree :=
  [FSTree.file okFile,
   FSTree.dir "sub" [FSTree.file scipyOnlyFile,
     FSTree.dir "deep" [FSTree.file badFile]]]

/-- A sample filesystem with an empty directory and a populated one. -/
def sampleFs : List (String × PathEntry) :=
  [("empty", PathEntry.dir []), ("data", PathEntry.dir sampleTree)]

/-- A two-directory graph whose symbolic links form a cycle. -/
def cyclicGraph : DirGraph :=
  ⟨[0, 1], fun n => if n = 0 then [1] else [0]⟩

/-- A sample source item for the output-layout model. -/
def sampleSource : SourceItem := ⟨["d1"], okFile⟩

theorem countSucceeded_add_countFailed (rs : List ConversionResult) :
    countSucceeded rs + countFailed rs = rs.length := by
  induction rs with
  | nil => rfl
  | cons r rs ih =>
      by_cases h : r.success
      · simp [countSucceeded, countFailed, h] at ih ⊢
        omega
      · simp [countSucceeded, countFailed, h] at ih ⊢
        omega

theorem countP_unvisited_cons_le (l visited : List Nat) (n : Nat) :
    l.countP (fun x => !(n :: visited).contains x) ≤
      l.countP (fun x => !visited.contains x) := by
  apply List.countP_mono_left
  intro a _ h
  simp at h ⊢
  tauto

theorem countP_unvisited_cons_lt (l visited : List Nat) (n : Nat)
    (hmem : n ∈ l) (hnv : ¬ n ∈ visited) :
    l.countP (fun x => !(n :: visited).contains x) <
      l.countP (fun x => !visited.contains x) := by
  induction l with
  | nil => cases hmem
  | cons a l ih =>
      simp only [List.countP_cons]
      by_cases han : a = n
      · subst han
        have hc1 : (a :: visited).contains a = true := by simp
        have hc2 : visited.contains a = false := by simp [hnv]
        have hle := countP_unvisited_cons_le l visited a
        have e1 : (if (!true : Bool) = true then 1 else 0) = 0 := rfl
        have e2 : (if (!false : Bool) = true then 1 else 0) = 1 := rfl
        simp only [hc1, hc2, e1, e2]
        omega
      · have hnl : n ∈ l := by
          rcases List.mem_cons.mp hmem with h | h
          · exact absurd h.symm han
          · exact h
        have hih := ih hnl
        have hc : (n :: visited).contains a = visited.contains a := by
          by_cases hv : a ∈ visited
          · have t1 : (n :: visited).contains a = true := by simp [hv]
            have t2 : visited.contains a = true := by simp [hv]
            rw [t1, t2]
          · have t1 : (n :: visited).contains a = false := by simp [hv, han]
            have t2 : visited.contains a = false := by simp [hv]
            rw [t1, t2]
        simp only [hc]
        omega

theorem unvisitedCount_cons_lt (g : DirGraph) (visited : List Nat) (n : Nat)
    (hmem : n ∈ g.dirs) (hnv : ¬ n ∈ visited) :
    unvisitedCount g (n :: visited) < unvisitedCount g visited :=
  countP_unvisited_cons_lt g.dirs visited n hmem hnv

theorem dfs_nodup (g : DirGraph) (stack visited : List Nat)
    (hnd : visited.Nodup) : (dfsDirs g stack visited).Nodup := by
  induction stack, visited using dfsDirs.induct g with
  | case1 visited => rw [dfsDirs]; simpa using hnd
  | case2 n stack visited h ih => rw [dfsDirs, dif_pos h]; exact ih hnd
  | case3 n stack visited h ih =>
      rw [dfsDirs, dif_neg h]
      exact ih (List.nodup_cons.mpr ⟨(not_or.mp h).1, hnd⟩)

theorem dfs_length_le (g : DirGraph) (stack visited : List Nat) :
    (dfsDirs g stack visited).length
      ≤ unvisitedCount g visited + visited.length := by
  induction stack, visited using dfsDirs.induct g with
  | case1 visited => rw [dfsDirs]; simp
  | case2 n stack visited h ih => rw [dfsDirs, dif_pos h]; exact ih
  | case3 n stack visited h ih =>
      rw [dfsDirs, dif_neg h]
      have hlt := unvisitedCount_cons_lt g visited n
        (not_not.mp (not_or.mp h).2) (not_or.mp h).1
      have := ih
      simp only [List.length_cons] at this
      omega

theorem mem_writeAll_of_mem_left (outs : List OutPath) :
    ∀ (existing : List OutPath) (x : OutPath), x ∈ existing →
      x ∈ writeAll existing outs := by
  induction outs with
  | nil => intro existing x hx; exact hx
  | cons o outs ih =>
      intro existing x hx
      rw [writeAll]
      apply ih
      by_cases h : o ∈ existing
      · rw [if_pos h]; exact hx
      · rw [if_neg h]; exact List.mem_append_left _ hx

theorem mem_writeAll_of_mem_right (outs : List OutPath) :
    ∀ (existing : List OutPath) (x : OutPath), x ∈ outs →
      x ∈ writeAll existing outs := by
  induction outs with
  | nil => intro existing x hx; cases hx
  | cons o outs ih =>
      intro existing x hx
      rw [writeAll]
      rcases List.mem_cons.mp hx with rfl | hxs
      · apply mem_writeAll_of_mem_left
        by_cases h : x ∈ existing
        · rw [if_pos h]; exact h
        · rw [if_neg h]
          exact List.mem_append_right _ (List.mem_singleton.mpr rfl)
      · exact ih _ x hxs

theorem writeAll_eq_self (outs : List OutPath) :
    ∀ (existing : List OutPath), (∀ x ∈ outs, x ∈ existing) →
      writeAll existing outs = existing := by
  induction outs with
  | nil => intro existing _; rfl
  | cons o outs ih =>
      intro existing h
      rw [writeAll, if_pos (h o (List.mem_cons_self o outs))]
      exact ih existing (fun x hx => h x (List.mem_cons_of_mem o hx))

theorem convertOne_source (avail : List Engine) (req : Engine) (f : NCFile) :
    (convertOne avail req f).source = f.name := by
  unfold convertOne
  cases selectEngine avail req f <;> rfl

theorem processFiles_getElem (avail : List Engine) (req : Engine)
    (pre post : List NCFile) (f : NCFile) :
    (processFiles avail req (pre ++ f :: post))[pre.length]?
      = some (convertOne avail req f) := by
  unfold processFiles
  rw [List.map_append, List.getElem?_append_right (by simp)]
  simp

theorem resolveInputs_ok_iff (fs : List (String × PathEntry))
    (inputs : List String) :
    resultOk (resolveInputs fs inputs)
      = inputs.all (fun p => (lookupPath fs p).isSome) := by
  induction inputs with
  | nil => rfl
  | cons p ps ih =>
      unfold resolveInputs
      cases hl : lookupPath fs p with
      | none => simp [resultOk, hl]
      | some e =>
          cases hr : resolveInputs fs ps with
          | error msg =>
              rw [hr] at ih
              simp [resultOk, hl, Except.map, List.all_cons, ← ih]
          | ok rest =>
              rw [hr] at ih
              simp [resultOk, hl, Except.map, List.all_cons, ← ih]

theorem visitedList_depth_le (r : Bool) (m : Nat) :
    ∀ (d : Nat) (ts : List FSTree) (q : String × Nat),
      q ∈ visitedList r (some m) d ts → q.2 ≤ m
  | d, [], q, hq => by simp [visitedList] at hq
  | d, FSTree.file f :: ts, q, hq => by
      simp only [visitedList] at hq
      exact visitedList_depth_le r m d ts q hq
  | d, FSTree.dir n children :: ts, q, hq => by
      simp only [visitedList] at hq
      rcases List.mem_append.mp hq with h | h
      · by_cases hg : (r && withinDepth (some m) (d + 1)) = true
        · rw [if_pos hg] at h
          rcases List.mem_cons.mp h with rfl | h2
          · have hb := ((Bool.and_eq_true _ _).mp hg).2
            simp only [withinDepth, decide_eq_true_eq] at hb
            exact hb
          · exact visitedList_depth_le r m (d + 1) children q h2
        · rw [if_neg hg] at h; cases h
      · exact visitedList_depth_le r m d ts q h
termination_by d ts => sizeOf ts

theorem resolveList_truncList (pats : List String) (r : Bool) (m : Nat) :
    ∀ (d : Nat) (ts : List FSTree),
      resolveList pats r (some m) d ts
        = resolveList pats r none d (truncList m d ts)
  | _, [] => by simp [resolveList, truncList]
  | d, FSTree.file f :: ts => by
      simp only [resolveList, truncList]
      rw [resolveList_truncList pats r m d ts]
  | d, FSTree.dir n children :: ts => by
      have ih1 := resolveList_truncList pats r m (d + 1) children
      have ih2 := resolveList_truncList pats r m d ts
      by_cases hd : d + 1 ≤ m
      · cases r with
        | true => simp [resolveList, truncList, withinDepth, hd, ih1, ih2]
        | false => simp [resolveList, truncList, withinDepth, hd, ih2]
      · simp [resolveList, truncList, withinDepth, hd, ih2]
termination_by d ts => sizeOf ts

/-- C1: for every group row of the batch summary, and for the overall total
row, the attempted count equals the succeeded count plus the failed count. -/
theorem aggregator_counts_invariant
    (groups : List (String × List ConversionResult)) :
    (∀ row ∈ summaryRows groups, row.attempted = row.succeeded + row.failed)
    ∧ (totalRow groups).attempted
        = (totalRow groups).succeeded + (totalRow groups).failed := by
  constructor
  · intro row hrow
    rcases List.mem_map.mp hrow with ⟨gr, _, rfl⟩
    simp only [statsFor]
    exact (countSucceeded_add_countFailed gr.2).symm
  · simp only [totalRow, statsFor]
    exact (countSucceeded_add_countFailed _).symm

/-- C1 witness: the invariant holds on a concrete two-result group. -/
theorem aggregator_counts_invariant_witness :
    (statsFor "d1" (processFiles [Engine.netcdf4] Engine.netcdf4
        [okFile, badFile])).attempted
      = (statsFor "d1" (processFiles [Engine.netcdf4] Engine.netcdf4
          [okFile, badFile])).succeeded
        + (statsFor "d1" (processFiles [Engine.netcdf4] Engine.netcdf4
            [okFile, badFile])).failed :=
  (aggregator_counts_invariant
      [("d1", processFiles [Engine.netcdf4] Engine.netcdf4 [okFile, badFile])]).1
    _ (by simp [summaryRows])

/-- C2: only a configuration error (a nonexistent input path) aborts the
invocation; per-file failures are caught and recorded, every attempted file
keeps one result entry carrying its source name, and the attempted count of
a group equals the number of files attempted whether they succeeded or
not. -/
theorem batch_error_containment (avail : List Engine) (cfg : Config)
    (fs : List (String × PathEntry)) (inputs : List String) :
    resultOk (process_multiple_inputs avail cfg fs inputs)
      = inputs.all (fun p => (lookupPath fs p).isSome)
    ∧ (∀ files : List NCFile,
        (processFiles avail cfg.engine files).map (fun r => r.source)
          = files.map (fun f => f.name))
    ∧ (∀ (g : String) (files : List NCFile),
        (statsFor g (processFiles avail cfg.engine files)).attempted
          = files.length)
    ∧ (∀ f : NCFile, selectEngine avail cfg.engine f = none →
        (convertOne avail cfg.engine f).success = false
          ∧ (convertOne avail cfg.engine f).errorMsg.isSome = true) := by
  refine ⟨?_, ?_, ?_, ?_⟩
  · unfold process_multiple_inputs
    cases hr : resolveInputs fs inputs with
    | error e =>
        have hi := resolveInputs_ok_iff fs inputs
        rw [hr] at hi
        simpa [resultOk] using hi
    | ok entries =>
        have hi := resolveInputs_ok_iff fs inputs
        rw [hr] at hi
        simpa [resultOk] using hi
  · intro files
    induction files with
    | nil => rfl
    | cons a l ih =>
        simp only [processFiles, List.map_cons] at ih ⊢
        exact List.cons_eq_cons.mpr ⟨convertOne_source _ _ _, ih⟩
  · intro g files
    simp [statsFor, processFiles]
  · intro f hsel
    unfold convertOne
    rw [hsel]
    exact ⟨rfl, rfl⟩

/-- C2 witness: a file no engine opens gets a failed entry with an error
message recorded. -/
theorem batch_error_containment_witness :
    (convertOne [] sampleCfg.engine badFile).success = false
      ∧ (convertOne [] sampleCfg.engine badFile).errorMsg.isSome = true :=
  (batch_error_containment [] sampleCfg sampleFs ["empty"]).2.2.2 badFile
    (by decide)

/-- C3: the requested engine is tried first; if it fails the remaining known
engines are tried in the fixed fallback order; exhaustion marks the file
failed with an error recorded; and within a batch the conversion of a file
is applied per file, unaffected by the files around it. -/
theorem engine_fallback_per_file (avail : List Engine) (req : Engine)
    (f : NCFile) :
    (engineOpens avail f req = true → selectEngine avail req f = some req)
    ∧ (engineOpens avail f req = false →
        selectEngine avail req f
          = (knownEngines.filter (fun e => e ≠ req)).find? (engineOpens avail f))
    ∧ (selectEngine avail req f = none →
        (convertOne avail req f).success = false)
    ∧ ∀ pre post : List NCFile,
        processFiles avail req (pre ++ f :: post)
          = processFiles avail req pre
              ++ convertOne avail req f :: processFiles avail req post := by
  refine ⟨?_, ?_, ?_, ?_⟩
  · intro h
    unfold selectEngine fallbackOrder
    exact List.find?_cons_of_pos _ h
  · intro h
    unfold selectEngine fallbackOrder
    rw [List.find?_cons_of_neg _ (by simp [h])]
  · intro hsel
    unfold convertOne
    rw [hsel]
  · intro pre post
    simp [processFiles]

/-- C3 witness: a file the requested engine cannot open falls back to the
scipy engine, and batch processing splits around it positionally. -/
theorem engine_fallback_per_file_witness :
    selectEngine [Engine.netcdf4, Engine.scipy, Engine.h5netcdf]
        Engine.netcdf4 scipyOnlyFile
      = (knownEngines.filter (fun e => e ≠ Engine.netcdf4)).find?
          (engineOpens [Engine.netcdf4, Engine.scipy, Engine.h5netcdf]
            scipyOnlyFile) :=
  (engine_fallback_per_file [Engine.netcdf4, Engine.scipy, Engine.h5netcdf]
      Engine.netcdf4 scipyOnlyFile).2.1 (by decide)

/-- C4: backend fallback is deterministic — the result entry for a file does
not depend on the surrounding batch, the engine recorded is the one the
selection resolves to, and the outcome is success exactly when selection
succeeds. -/
theorem backend_fallback_deterministic (avail : List Engine) (req : Engine)
    (f : NCFile) (pre₁ post₁ pre₂ post₂ : List NCFile) :
    (processFiles avail req (pre₁ ++ f :: post₁))[pre₁.length]?
      = (processFiles avail req (pre₂ ++ f :: post₂))[pre₂.length]?
    ∧ (convertOne avail req f).engineUsed = selectEngine avail req f
    ∧ (convertOne avail req f).success = (selectEngine avail req f).isSome := by
  refine ⟨?_, ?_, ?_⟩
  · rw [processFiles_getElem, processFiles_getElem]
  · unfold convertOne
    cases hsel : selectEngine avail req f <;> simp
  · unfold convertOne
    cases hsel : selectEngine avail req f <;> simp

/-- C6: the traversal of the directory graph is finite even in the presence
of symbolic-link cycles — the visited list never repeats a directory and its
length is bounded by the number of directories plus the already-visited
ones. -/
theorem traversal_finite_no_cycles (g : DirGraph) (stack visited : List Nat)
    (hnd : visited.Nodup) :
    (dfsDirs g stack visited).Nodup
    ∧ (dfsDirs g stack visited).length ≤ g.dirs.length + visited.length := by
  refine ⟨dfs_nodup g stack visited hnd, ?_⟩
  have h1 := dfs_length_le g stack visited
  have h2 : unvisitedCount g visited ≤ g.dirs.length :=
    List.countP_le_length _
  omega

/-- C6 witness: on a two-directory cycle the traversal terminates with each
directory visited at most once. -/
theorem traversal_finite_no_cycles_witness :
    (dfsDirs cyclicGraph [0] []).Nodup
    ∧ (dfsDirs cyclicGraph [0] []).length
        ≤ cyclicGraph.dirs.length + ([] : List Nat).length :=
  traversal_finite_no_cycles cyclicGraph [0] [] List.nodup_nil

/-- C5: with a depth limit set, every directory the resolver visits lies at
nesting depth at most the limit, the resolved candidates are exactly those of
the tree truncated at the limit, and with the limit unset the depth guard
never blocks descent. -/
theorem depth_limited_resolution (pats : List String) (r : Bool) (m : Nat)
    (ts : List FSTree) :
    (∀ q ∈ visitedList r (some m) 0 ts, q.2 ≤ m)
    ∧ resolveList pats r (some m) 0 ts
        = resolveList pats r none 0 (truncList m 0 ts)
    ∧ ∀ d : Nat, withinDepth none d = true :=
  ⟨fun q hq => visitedList_depth_le r m 0 ts q hq,
   resolveList_truncList pats r m 0 ts,
   fun _ => rfl⟩

/-- C5 witness: in the sample tree with limit 1 the visited subdirectory sits
at depth 1 ≤ 1. -/
theorem depth_limited_resolution_witness :
    (("sub", 1) : String × Nat).2 ≤ 1 :=
  (depth_limited_resolution ["*.nc"] true 1 sampleTree).1 ("sub", 1)
    (by simp +decide [visitedList, sampleTree, withinDepth, okFile,
      scipyOnlyFile, badFile])

/-- C7: a directory input whose pattern matching yields no candidate files is
not an error — the invocation succeeds and the summary row for that input
(and the total) shows zero attempted, succeeded and failed. -/
theorem empty_match_zero_summary (avail : List Engine) (cfg : Config)
    (fs : List (String × PathEntry)) (p : String) (e : PathEntry)
    (hlook : lookupPath fs p = some e) (hempty : resolveInput cfg e = []) :
    process_multiple_inputs avail cfg fs [p]
      = Except.ok ([⟨p, 0, 0, 0⟩], ⟨"TOTAL", 0, 0, 0⟩) := by
  have h1 : resolveInputs fs [p] = Except.ok [(p, e)] := by
    simp [resolveInputs, hlook, Except.map]
  unfold process_multiple_inputs
  rw [h1]
  simp [processInput, hempty, processFiles, summaryRows, totalRow, statsFor,
    countSucceeded, countFailed]

/-- C7 witness: the empty sample directory produces a zero-count summary and
no error. -/
theorem empty_match_zero_summary_witness :
    process_multiple_inputs [] sampleCfg sampleFs ["empty"]
      = Except.ok ([⟨"empty", 0, 0, 0⟩], ⟨"TOTAL", 0, 0, 0⟩) :=
  empty_match_zero_summary [] sampleCfg sampleFs "empty" (PathEntry.dir [])
    (by simp [lookupPath, sampleFs])
    (by simp [resolveInput, resolveList])

/-- C8: for every successfully opened file the exporter records one CSV per
variable named after the variable; the combined CSV is additionally produced
exactly when dimensions are compatible, and its absence neither removes the
per-variable outputs nor changes the success of the conversion. -/
theorem exporter_per_variable_and_combined (avail : List Engine)
    (req : Engine) (f : NCFile)
    (hs : (convertOne avail req f).success = true) :
    (convertOne avail req f).outputs = exportOutputs f
    ∧ (perVariableOutputs f).length = f.varNames.length
    ∧ (∀ v ∈ f.varNames, csvNameFor v ∈ exportOutputs f)
    ∧ (f.combinedCompatible = true →
        exportOutputs f = perVariableOutputs f ++ [combinedName f])
    ∧ (f.combinedCompatible = false → exportOutputs f = perVariableOutputs f)
    ∧ ∀ b : Bool,
        (convertOne avail req { f with combinedCompatible := b }).success
          = (convertOne avail req f).success := by
  refine ⟨?_, ?_, ?_, ?_, ?_, ?_⟩
  · unfold convertOne at hs ⊢
    cases hsel : selectEngine avail req f with
    | some e => rfl
    | none => rw [hsel] at hs; simp at hs
  · simp [perVariableOutputs]
  · intro v hv
    exact List.mem_append_left _
      (List.mem_map.mpr ⟨v, hv, rfl⟩)
  · intro hc
    simp [exportOutputs, combinedOutputs, hc]
  · intro hc
    simp [exportOutputs, combinedOutputs, hc]
  · intro b
    have hsel : selectEngine avail req { f with combinedCompatible := b }
        = selectEngine avail req f := by
      cases f
      rfl
    unfold convertOne
    rw [hsel]
    cases selectEngine avail req f <;> rfl

/-- C8 witness: a file with incompatible dimensions still gets all its
per-variable CSVs and only those. -/
theorem exporter_per_variable_and_combined_witness :
    exportOutputs okFile = perVariableOutputs okFile :=
  (exporter_per_variable_and_combined [Engine.netcdf4] Engine.netcdf4 okFile
      (by decide)).2.2.2.2.1 (by decide)

/-- C9: re-running the conversion on an unchanged source file set with
structure preservation enabled reproduces the output directory layout of the
first run. -/
theorem conversion_idempotent (cfg : Config) (sources : List SourceItem)
    (start : List OutPath) (_hp : cfg.preserveStructure = true) :
    runConversion cfg.preserveStructure sources
        (runConversion cfg.preserveStructure sources start)
      = runConversion cfg.preserveStructure sources start := by
  unfold runConversion
  apply writeAll_eq_self
  intro x hx
  exact mem_writeAll_of_mem_right _ start x hx

/-- C9 witness: a concrete second run over the sample source reproduces the
first layout. -/
theorem conversion_idempotent_witness :
    runConversion sampleCfg.preserveStructure [sampleSource]
        (runConversion sampleCfg.preserveStructure [sampleSource] [])
      = runConversion sampleCfg.preserveStructure [sampleSource] [] :=
  conversion_idempotent sampleCfg [sampleSource] [] rfl

/-- C10: the single-file entry point returns a boolean — true exactly when
some engine opened the file, false exactly when every engine was exhausted —
rather than propagating an error to the caller. -/
theorem nc_to_csv_xarray_boolean (avail : List Engine) (req : Engine)
    (f : NCFile) :
    (nc_to_csv_xarray avail req f = true
        ↔ (selectEngine avail req f).isSome = true)
    ∧ (nc_to_csv_xarray avail req f = false
        ↔ selectEngine avail req f = none) := by
  unfold nc_to_csv_xarray convertOne
  cases hsel : selectEngine avail req f <;> simp

end NcToCsv
